import Mathlib

/-!
# Verification of the dev-events data layer

A shallow embedding of the repository's three modules:

* `src/database/event.model.ts` — the `Event` schema with its `slugify` and
  `normalizeTime` utilities and the pre-save validation/normalization hook;
* `src/database/booking.model.ts` — the `Booking` schema with its email
  regex and the pre-save referential-integrity hook;
* the connection-cache module (`connectToDatabase`).

JavaScript strings are modelled as Lean `String`/`List Char`; `undefined`
field values as `Option`; the Mongoose document flags `isNew` /
`isModified(path)` as explicit fields of the document structures; the
database's collection of events as a list of ids; and the async connection
cache as an explicit state machine whose steps are the synchronous segments
of `connectToDatabase` between `await` points.
-/

namespace DevEvents

/-- ASCII whitespace, modelling the characters that both JavaScript's
`String.prototype.trim` and the regex class `\s` treat as whitespace
(restricted to ASCII; the Unicode additions play no role in any claim). -/
def isWSChar (c : Char) : Bool :=
  c = ' ' ∨ c = '\t' ∨ c = '\n' ∨ c = '\r' ∨ c = '\x0b' ∨ c = '\x0c'

/-- Decimal digit, the regex class `\d`. -/
def isDigitChar (c : Char) : Bool :=
  '0' ≤ c ∧ c ≤ '9'

/-- The regex class `[a-z0-9]` used by `slugify` (applied after lowercasing). -/
def isSlugChar (c : Char) : Bool :=
  ('a' ≤ c ∧ c ≤ 'z') ∨ ('0' ≤ c ∧ c ≤ '9')

/-- Model of `value.trim()` on a character list: strip leading and trailing whitespace. -/
def trimList (l : List Char) : List Char :=
  ((l.dropWhile isWSChar).reverse.dropWhile isWSChar).reverse

/-- Model of `value.trim()` on a string. -/
def trimJS (s : String) : String :=
  ⟨trimList s.data⟩

/-- Model of `value.toLowerCase()` (ASCII; all inputs in the claims are ASCII). -/
def toLowerList (l : List Char) : List Char :=
  l.map Char.toLower

/-- Numeric value of a digit character. -/
def digitVal (c : Char) : Nat :=
  c.toNat - '0'.toNat

/-- Model of `parseInt` on a non-empty all-digit string, as a fold. -/
def digitsToNat (l : List Char) : Nat :=
  l.foldl (fun acc c => 10 * acc + digitVal c) 0

/-- Model of `String(n).padStart(2, '0')` for `n ≤ 99`. -/
def pad2 (n : Nat) : String :=
  (if n < 10 then "0" else "") ++ toString n

/-! ## `slugify` (src/database/event.model.ts, lines 30–37)

```js
const slugify = (value) =>
  value.toString().trim().toLowerCase()
       .replace(/[^a-z0-9]+/g, '-')
       .replace(/^-+|-+$/g, '');
```
-/

/-- Model of `.replace(/[^a-z0-9]+/g, '-')`, scanning left to right: the flag records
whether the scanner is inside a non-`[a-z0-9]` run whose dash has already been
emitted, so each maximal run of characters outside `[a-z0-9]` becomes a single
dash. -/
def collapseAux : Bool → List Char → List Char
  | _, [] => []
  | inRun, c :: rest =>
    if isSlugChar c then c :: collapseAux false rest
    else if inRun then collapseAux true rest
    else '-' :: collapseAux true rest

/-- Model of `.replace(/[^a-z0-9]+/g, '-')`: each maximal run of characters outside
`[a-z0-9]` becomes a single dash. -/
def collapseRuns (l : List Char) : List Char :=
  collapseAux false l

/-- Model of `.replace(/^-+|-+$/g, '')`: strip leading and trailing dashes. -/
def stripDashes (l : List Char) : List Char :=
  ((l.dropWhile (fun c => c = '-')).reverse.dropWhile (fun c => c = '-')).reverse

/-- Function `slugify` from src/database/event.model.ts. -/
def slugify (value : String) : String :=
  ⟨stripDashes (collapseRuns (toLowerList (trimList value.data)))⟩

/-! ## `normalizeTime` (src/database/event.model.ts, lines 40–71)

```js
const normalizeTime = (value) => {
  const trimmed = value.trim().toLowerCase();
  const timeRegex = /^(\d{1,2})(?::(\d{2}))?\s*(am|pm)?$/i;
  const match = trimmed.match(timeRegex);
  if (!match) return null;
  let hours = parseInt(match[1], 10);
  const minutes = match[2] ? parseInt(match[2], 10) : 0;
  const period = match[3];
  if (minutes < 0 || minutes > 59) return null;
  if (period) {
    if (hours < 1 || hours > 12) return null;
    if (period === 'pm' && hours !== 12) hours += 12;
    else if (period === 'am' && hours === 12) hours = 0;
  } else if (hours < 0 || hours > 23) return null;
  return `${hours pad}${minutes pad}` (zero-padded, joined by ':');
};
```

The anchored regex `^(\d{1,2})(?::(\d{2}))?\s*(am|pm)?$` is matched by the
deterministic parser below.  Maximal munch is faithful here: after the hour
digits the regex requires `:`, whitespace, `a`/`p` or the end, none of which
is a digit, so no backtracking into the digit groups can succeed (a leading
digit run of length ≥ 3 can never match), and after `\s*` only `a`, `p` or
the end may follow, none of which is whitespace. -/

/-- The `(\d{2})` minutes group after a `:`: exactly two digit characters,
then the rest of the input. -/
def parseMinDigits : List Char → Option (Option Nat × List Char)
  | [] => none
  | [_] => none
  | a :: b :: rest2 =>
    if isDigitChar a ∧ isDigitChar b then
      some (some (digitsToNat [a, b]), rest2)
    else none

/-- The optional `(?::(\d{2}))?` group: a remainder starting with `:` must
continue with exactly two digits (a leftover `:` could match neither `\s*`
nor `(am|pm)?$`, so the regex fails); a remainder not starting with `:`
leaves the group unmatched. -/
def parseMinutes : List Char → Option (Option Nat × List Char)
  | [] => some (none, [])
  | c :: t => if c = ':' then parseMinDigits t else some (none, c :: t)

/-- The `(am|pm)?$` tail on the whitespace-free remainder of the lowercased
input: exactly the empty remainder, `am`, or `pm` (`false` = `am`,
`true` = `pm`). -/
def parseSuffixTail : List Char → Option (Option Bool)
  | [] => some none
  | [_] => none
  | [c1, c2] =>
    if c1 = 'a' ∧ c2 = 'm' then some (some false)
    else if c1 = 'p' ∧ c2 = 'm' then some (some true)
    else none
  | _ :: _ :: _ :: _ => none

/-- The tail `\s*(am|pm)?$` of the regex: skip whitespace, then match the
optional suffix. -/
def parseSuffix (l : List Char) : Option (Option Bool) :=
  parseSuffixTail (l.dropWhile isWSChar)

/-- Run the time regex on the trimmed, lowercased character list; on success
return the hour value, the optional minutes value (capture group 2) and the
optional meridiem. -/
def matchTime (cs : List Char) : Option (Nat × Option Nat × Option Bool) :=
  let hd := cs.takeWhile isDigitChar
  let rest := cs.dropWhile isDigitChar
  if hd.length = 0 ∨ 2 < hd.length then
    none
  else
    match parseMinutes rest with
    | none => none
    | some (mins, rest2) =>
      match parseSuffix rest2 with
      | none => none
      | some per => some (digitsToNat hd, mins, per)

/-- Function `normalizeTime` from src/database/event.model.ts.  (`minutes < 0` and
`hours < 0` in the source are vacuous on parsed digit groups and are dropped
in the `Nat` model.) -/
def normalizeTime (value : String) : Option String :=
  let trimmed := toLowerList (trimList value.data)
  match matchTime trimmed with
  | none => none
  | some (hours, minsOpt, period) =>
    let minutes := minsOpt.getD 0
    if 59 < minutes then none
    else
      match period with
      | some isPm =>
        if hours < 1 ∨ 12 < hours then none
        else
          let h :=
            if isPm ∧ hours ≠ 12 then hours + 12
            else if ¬ isPm ∧ hours = 12 then 0
            else hours
          some (pad2 h ++ ":" ++ pad2 minutes)
      | none =>
        if 23 < hours then none
        else some (pad2 hours ++ ":" ++ pad2 minutes)

/-! ## `emailRegex` (src/database/booking.model.ts, line 19)

```js
const emailRegex = /^[^\s@]+@[^\s@]+\.[^\s@]+$/;
```

The three character classes all equal `[^\s@]`, so a matching string consists
of exactly one `@`, a non-empty `@`/whitespace-free part before it, and after
it a part of the form `A.B` with `A`, `B` non-empty and `@`/whitespace-free
(`A` and `B` may themselves contain further dots). -/

/-- The regex class `[^\s@]`. -/
def okEmailChar (c : Char) : Bool :=
  ¬ isWSChar c ∧ c ≠ '@'

/-- Split a list at the first occurrence of `ch`; `none` when `ch` is absent. -/
def splitAtChar (ch : Char) : List Char → Option (List Char × List Char)
  | [] => none
  | c :: rest =>
    if c = ch then some ([], rest)
    else
      match splitAtChar ch rest with
      | some (l, r) => some (c :: l, r)
      | none => none

/-- Is there a `'.'` that is neither the first nor the last element?  On the
part after the `@`, this is exactly matchability of `[^\s@]+\.[^\s@]+` once
every character is known to be in `[^\s@]`. -/
def dotThenMore : List Char → Bool
  | [] => false
  | c :: rest => (c = '.' ∧ rest ≠ []) ∨ dotThenMore rest

/-- Match of `[^\s@]+\.[^\s@]+` on an all-`[^\s@]` list: non-empty, with an interior dot. -/
def interiorDot : List Char → Bool
  | [] => false
  | _ :: rest => dotThenMore rest

/-- Model of `emailRegex.test(s)` for `/^[^\s@]+@[^\s@]+\.[^\s@]+$/`. -/
def emailRegexTest (s : String) : Bool :=
  match splitAtChar '@' s.data with
  | none => false
  | some (l, r) => l ≠ [] ∧ l.all okEmailChar ∧ r.all okEmailChar ∧ interiorDot r

/-- Models the Mongoose `String` setters declared on `Booking.email`
(`trim: true, lowercase: true`): the stored value is the trimmed, lowercased
input.  (The two setters commute, so one order is fixed here.) -/
def normalizeEmailSetter (s : String) : String :=
  ⟨toLowerList (trimList s.data)⟩

/-! ## JavaScript `Date` (external runtime collaborator)

The Event hook calls `new Date(this.date)`, checks `Number.isNaN(getTime())`,
and stores `parsedDate.toISOString().split('T')[0]`.  Both operations belong
to the JavaScript runtime, not to this repository, so they are abstracted:
a `JDate` is the UTC calendar date of the parsed timestamp, a date parser is
any function `String → Option JDate` (`none` = Invalid Date), and
`toISODateOnly` renders the `YYYY-MM-DD` portion of `toISOString()`. -/

/-- The UTC calendar date of a parsed JavaScript `Date`. -/
structure JDate where
  year : Nat
  month : Nat
  day : Nat
deriving DecidableEq

/-- Model of `String(n)` left-padded with zeros to 4 digits (the year field of
`toISOString()` for years 0–9999). -/
def pad4 (n : Nat) : String :=
  ⟨List.replicate (4 - (toString n).length) '0'⟩ ++ toString n

/-- Model of `parsedDate.toISOString().split('T')[0]`: the UTC `YYYY-MM-DD` portion. -/
def toISODateOnly (d : JDate) : String :=
  pad4 d.year ++ "-" ++ pad2 d.month ++ "-" ++ pad2 d.day

/-- Day count of a month in the Gregorian calendar. -/
def daysInMonth (year month : Nat) : Nat :=
  if month = 2 then
    if year % 4 = 0 ∧ (year % 100 ≠ 0 ∨ year % 400 = 0) then 29 else 28
  else if month = 4 ∨ month = 6 ∨ month = 9 ∨ month = 11 then 30
  else 31

/-- A concrete instance of the abstract date parser: the JavaScript `Date`
constructor restricted to ISO `YYYY-MM-DD` inputs (parsed as UTC midnight;
out-of-range components give Invalid Date).  Used to instantiate theorems
that quantify over the parser. -/
def jsDateISO (s : String) : Option JDate :=
  match s.data with
  | [y1, y2, y3, y4, '-', m1, m2, '-', d1, d2] =>
    if isDigitChar y1 ∧ isDigitChar y2 ∧ isDigitChar y3 ∧ isDigitChar y4 ∧
       isDigitChar m1 ∧ isDigitChar m2 ∧ isDigitChar d1 ∧ isDigitChar d2 then
      let y := digitsToNat [y1, y2, y3, y4]
      let m := digitsToNat [m1, m2]
      let d := digitsToNat [d1, d2]
      if 1 ≤ m ∧ m ≤ 12 ∧ 1 ≤ d ∧ d ≤ daysInMonth y m then
        some ⟨y, m, d⟩
      else none
    else none
  | _ => none

/-! ## The `Event` document and its pre-save hook
(src/database/event.model.ts, lines 110–165)

A field that is `undefined` (or not a string / not an array, which the hook's
`typeof`/`Array.isArray` guards treat the same way) is modelled as `none`.
`isNew` and `isModified(path)` are the Mongoose document flags, modelled as a
Boolean and a list of modified paths. -/

structure EventDoc where
  title : Option String
  slug : Option String
  description : Option String
  overview : Option String
  image : Option String
  venue : Option String
  location : Option String
  date : Option String
  time : Option String
  mode : Option String
  audience : Option String
  organizer : Option String
  agenda : Option (List String)
  tags : Option (List String)
  isNew : Bool
  modifiedPaths : List String
deriving DecidableEq

/-- The `requiredStringFields` array of the hook, paired with the values the
loop reads from the document, in source order. -/
def requiredStringFields (d : EventDoc) : List (String × Option String) :=
  [("title", d.title), ("description", d.description),
   ("overview", d.overview), ("image", d.image), ("venue", d.venue),
   ("location", d.location), ("date", d.date), ("time", d.time),
   ("mode", d.mode), ("audience", d.audience), ("organizer", d.organizer)]

/-- The error built for a failing required string field. -/
def fieldErrMsg (name : String) : String :=
  "Field \"" ++ name ++ "\" is required and cannot be empty."

/-- The hook's loop over `requiredStringFields`: the first field whose value
is not a string (`none`) or is empty after trimming produces its error. -/
def checkRequiredStrings : List (String × Option String) → Option String
  | [] => none
  | (name, v) :: rest =>
    match v with
    | none => some (fieldErrMsg name)
    | some s =>
      if (trimList s.data).length = 0 then some (fieldErrMsg name)
      else checkRequiredStrings rest

/-- The validation phase of the Event pre-save hook: required string fields
in order, then `agenda`, then `tags`.  Returns the error passed to `next`,
or `none` when validation passes. -/
def validateEvent (d : EventDoc) : Option String :=
  match checkRequiredStrings (requiredStringFields d) with
  | some e => some e
  | none =>
    match d.agenda with
    | none => some "Agenda must contain at least one item."
    | some ag =>
      if ag.length = 0 then some "Agenda must contain at least one item."
      else
        match d.tags with
        | none => some "Tags must contain at least one item."
        | some tg =>
          if tg.length = 0 then some "Tags must contain at least one item."
          else none

/-- Hook block `if (this.isNew || this.isModified('title')) this.slug =
slugify(this.title);`. -/
def applySlug (d : EventDoc) : EventDoc :=
  if d.isNew ∨ d.modifiedPaths.contains "title" then
    { d with slug := some (slugify (d.title.getD "")) }
  else d

/-- Hook block for date normalization: when new or `date` modified, parse the
date and store the UTC `YYYY-MM-DD` portion, aborting on Invalid Date.
`jsDate` is the JavaScript `Date` parser (external collaborator). -/
def applyDate (jsDate : String → Option JDate) (d : EventDoc) :
    Except String EventDoc :=
  if d.isNew ∨ d.modifiedPaths.contains "date" then
    match jsDate (d.date.getD "") with
    | none => .error "Invalid date format. Expected a valid date string."
    | some jd => .ok { d with date := some (toISODateOnly jd) }
  else .ok d

/-- Hook block for time normalization: when new or `time` modified, normalize
the time, aborting when `normalizeTime` returns `null`. -/
def applyTime (d : EventDoc) : Except String EventDoc :=
  if d.isNew ∨ d.modifiedPaths.contains "time" then
    match normalizeTime (d.time.getD "") with
    | none =>
      .error "Invalid time format. Expected a valid time (e.g., \"13:30\" or \"1:30 pm\")."
    | some t => .ok { d with time := some t }
  else .ok d

/-- The normalization phase of the Event pre-save hook, run after validation
passes: the slug, date and time blocks in source order (the first failing
block aborts the save). -/
def eventNormalize (jsDate : String → Option JDate) (d : EventDoc) :
    Except String EventDoc :=
  match applyDate jsDate (applySlug d) with
  | .error e => .error e
  | .ok d2 => applyTime d2

/-- The whole Event pre-save hook: validation, then normalization.
`.error e` models `next(e)` with an error, `.ok d` models reaching the final
`next()` with the document in state `d`. -/
def eventPreSave (jsDate : String → Option JDate) (d : EventDoc) :
    Except String EventDoc :=
  match validateEvent d with
  | some e => .error e
  | none => eventNormalize jsDate d

/-! ## The `Booking` document and its pre-save hook
(src/database/booking.model.ts, lines 44–67) -/

/-- A Booking as the hook sees it: `email` after the schema setters
(`none` = `undefined`), `eventId` an ObjectId modelled as a string
(`none` = absent). -/
structure BookingDoc where
  eventId : Option String
  email : Option String
deriving DecidableEq

/-- The Booking pre-save hook.  `store` is the set of `_id`s in the Event
collection at the moment of save, so `Event.exists({ _id })` is membership.
`!this.email` is falsy for `undefined` and for the empty string. -/
def bookingPreSave (store : List String) (b : BookingDoc) :
    Except String Unit :=
  let emailOk : Bool :=
    match b.email with
    | none => false
    | some e => e ≠ "" ∧ emailRegexTest e
  if ¬ emailOk then .error "A valid email address is required."
  else
    match b.eventId with
    | none => .error "eventId is required."
    | some id =>
      if store.contains id then .ok ()
      else .error "Referenced event does not exist."

/-! ## The connection cache (`connectToDatabase`)

```js
const cached = global.mongoose ?? { conn: null, promise: null };
export async function connectToDatabase() {
  if (cached.conn) return cached.conn;
  if (!cached.promise) {
    cached.promise = mongoose.connect(MONGODB_URI, options)
      .then((mongooseInstance) => mongooseInstance);
  }
  cached.conn = await cached.promise;
  return cached.conn;
}
```

The runtime is single-threaded: each caller runs the synchronous prefix of
the function atomically, up to either an immediate return of `cached.conn`
or suspension at `await cached.promise`.  Connection attempts are numbered;
`conn`/`promise` hold the id of the resolved connection / in-flight attempt. -/

structure MongooseCache where
  conn : Option Nat
  promise : Option Nat
deriving DecidableEq

/-- What one synchronous entry into `connectToDatabase` does before any
`await`. -/
inductive ConnectOutcome where
  /-- Case where `cached.conn` was set: it is returned directly, with no await. -/
  | cachedConn (id : Nat)
  /-- The caller suspends at `await cached.promise` on attempt `attempt`. -/
  | awaiting (attempt : Nat)
deriving DecidableEq

/-- The synchronous prefix of `connectToDatabase`: returns the updated cache,
the outcome, and whether `mongoose.connect` was invoked (a new underlying
connection attempt).  `fresh` numbers a newly created attempt. -/
def connectEnter (c : MongooseCache) (fresh : Nat) :
    MongooseCache × ConnectOutcome × Bool :=
  match c.conn with
  | some id => (c, .cachedConn id, false)
  | none =>
    match c.promise with
    | some p => (c, .awaiting p, false)
    | none => ({ c with promise := some fresh }, .awaiting fresh, true)

/-- Resumption of `cached.conn = await cached.promise; return cached.conn`
once the awaited attempt settles: on fulfillment with handle `v` the handle
is cached and returned; on rejection the exception propagates and the cache
is left untouched (in particular `cached.promise` keeps the rejected
attempt). -/
def connectResume (c : MongooseCache) (settled : Except Nat Nat) :
    MongooseCache × Except Nat Nat :=
  match settled with
  | .ok v => ({ c with conn := some v }, .ok v)
  | .error e => (c, .error e)

/-- Runs `n` consecutive synchronous entries into `connectToDatabase` (the
interleaving of `n` concurrent callers before any attempt settles), threading
the cache and the fresh-attempt counter; returns the final cache and each
caller's (outcome, made-new-attempt) pair. -/
def runEnters : MongooseCache → Nat → Nat → MongooseCache × List (ConnectOutcome × Bool)
  | c, _, 0 => (c, [])
  | c, fresh, n + 1 =>
    let (c1, o, b) := connectEnter c fresh
    let fresh1 := if b then fresh + 1 else fresh
    let (c2, rest) := runEnters c1 fresh1 n
    (c2, (o, b) :: rest)

/-- The cache state at module load: `{ conn: null, promise: null }`. -/
def emptyCache : MongooseCache := ⟨none, none⟩

/-! ## Claim-side definitions and sample documents -/

/-- A well-formed slug: only lowercase letters, digits, and dashes; no two
adjacent dashes (all dashes are "single"); no leading or trailing dash. -/
def GoodSlug (l : List Char) : Prop :=
  (∀ c ∈ l, isSlugChar c = true ∨ c = '-') ∧
  l.Chain' (fun x y => x ≠ '-' ∨ y ≠ '-') ∧
  (∀ c, l.head? = some c → c ≠ '-') ∧
  (∀ c, l.getLast? = some c → c ≠ '-')

/-- A sample new Event with valid fields, used to instantiate theorems. -/
def baseEvent : EventDoc where
  title := some "My Event"
  slug := none
  description := some "d"
  overview := some "o"
  image := some "i"
  venue := some "v"
  location := some "l"
  date := some "2025-06-09"
  time := some "13:30"
  mode := some "m"
  audience := some "a"
  organizer := some "org"
  agenda := some ["x"]
  tags := some ["y"]
  isNew := true
  modifiedPaths := []

/-- A new Event whose title is `"!!!"` — non-empty after trimming — and whose
other fields are unremarkable and valid. -/
def bangTitleEvent : EventDoc :=
  { baseEvent with title := some "!!!" }

/-- Claim-side test on one required field value: it is a string that is
non-empty after trimming. -/
def goodStr : Option String → Bool
  | none => false
  | some s => (trimList s.data).length ≠ 0

/-- An already-persisted Event being saved with only `description`
modified. -/
def savedEvent : EventDoc :=
  { baseEvent with
      slug := some "my-event", isNew := false, modifiedPaths := ["description"] }

/-- Claim-side shape of a matching email: non-empty local part, one `@`, a
domain with a dot splitting it into non-empty parts, and no whitespace or
further `@` anywhere. -/
def EmailShape (cs : List Char) : Prop :=
  ∃ l a b : List Char,
    cs = l ++ '@' :: (a ++ '.' :: b) ∧
    l ≠ [] ∧ a ≠ [] ∧ b ≠ [] ∧
    (∀ c ∈ l, okEmailChar c = true) ∧
    (∀ c ∈ a, okEmailChar c = true) ∧
    (∀ c ∈ b, okEmailChar c = true)

/-- A Booking referencing event `"e1"` with a well-formed email. -/
def sampleBooking : BookingDoc := ⟨some "e1", some "a@b.co"⟩

/-- Claim-side grammar for `normalizeTime` inputs (stated of the trimmed,
lowercased character list): one or two hour digits, an optional `:MM` group
of exactly two minute digits, optional whitespace, and an optional
`am`/`pm` suffix. -/
def TimeShape (cs : List Char) (h : Nat) (minsOpt : Option Nat)
    (per : Option Bool) : Prop :=
  ∃ hd mp ws sf : List Char,
    cs = hd ++ (mp ++ (ws ++ sf)) ∧
    (hd.length = 1 ∨ hd.length = 2) ∧
    (∀ c ∈ hd, isDigitChar c = true) ∧
    digitsToNat hd = h ∧
    ((mp = [] ∧ minsOpt = none) ∨
      (∃ a b, mp = [':', a, b] ∧ isDigitChar a = true ∧ isDigitChar b = true ∧
        minsOpt = some (digitsToNat [a, b]))) ∧
    (∀ c ∈ ws, isWSChar c = true) ∧
    ((sf = [] ∧ per = none) ∨ (sf = ['a', 'm'] ∧ per = some false) ∨
      (sf = ['p', 'm'] ∧ per = some true))

/-- Claim-side range conditions: minutes 0–59; with an `am`/`pm` suffix the
12-hour hour lies in 1–12; without one the 24-hour hour lies in 0–23. -/
def ValidTime (h : Nat) (minsOpt : Option Nat) (per : Option Bool) : Prop :=
  minsOpt.getD 0 ≤ 59 ∧ (per = none → h ≤ 23) ∧ (per ≠ none → 1 ≤ h ∧ h ≤ 12)

/-- Claim-side 12-hour → 24-hour conversion: `12am` becomes 0, `12pm` stays
12, `pm` adds 12 except for 12; a 24-hour hour is unchanged. -/
def to24Hour (h : Nat) (per : Option Bool) : Nat :=
  match per with
  | none => h
  | some true => if h = 12 then 12 else h + 12
  | some false => if h = 12 then 0 else h

/-! ## Concrete sanity checks of the embedded functions -/

example : normalizeTime "1:30 pm" = some "13:30" := by decide
example : normalizeTime "13:30" = some "13:30" := by decide
example : normalizeTime "12am" = some "00:00" := by decide
example : normalizeTime "25:00" = none := by decide
example : normalizeTime "13pm" = none := by decide
example : slugify "Hello, World!" = "hello-world" := by decide
example : slugify "  ---Foo Bar---  " = "foo-bar" := by decide
example : emailRegexTest "user@example.com" = true := by decide
example : emailRegexTest "a@b.c.d" = true := by decide
example : emailRegexTest "a@b" = false := by decide
example : emailRegexTest "a@.b" = false := by decide
example : emailRegexTest "a@b." = false := by decide
example : emailRegexTest "a b@c.d" = false := by decide
example : emailRegexTest "a@b@c.d" = false := by decide
example : emailRegexTest "@b.c" = false := by decide
example : normalizeEmailSetter "USER@Example.com" = "user@example.com" := by decide
example : jsDateISO "2025-06-09" = some ⟨2025, 6, 9⟩ := by decide
example : jsDateISO "2025-02-30" = none := by decide
example : jsDateISO "not a date" = none := by decide
example : toISODateOnly ⟨2025, 6, 9⟩ = "2025-06-09" := by decide

/-! ## Generic list lemmas -/

theorem takeWhile_append_eq {p : Char → Bool} {l r : List Char}
    (hl : ∀ c ∈ l, p c = true) (hr : ∀ c, r.head? = some c → p c = false) :
    (l ++ r).takeWhile p = l ∧ (l ++ r).dropWhile p = r := by
  induction l with
  | nil =>
    cases r with
    | nil => simp
    | cons c t => simp [List.takeWhile_cons, List.dropWhile_cons, hr c rfl]
  | cons a l ih =>
    have ha := hl a (by simp)
    have ih2 := ih fun c hc => hl c (by simp [hc])
    simp [List.takeWhile_cons, List.dropWhile_cons, ha, ih2.1, ih2.2]

theorem head?_dropWhile_not {p : Char → Bool} :
    ∀ (l : List Char) (c : Char), (l.dropWhile p).head? = some c → p c = false := by
  intro l
  induction l with
  | nil => intro c h; simp at h
  | cons a t ih =>
    intro c h
    rw [List.dropWhile_cons] at h
    by_cases hpa : p a = true
    · exact ih c (by simpa [hpa] using h)
    · simp [hpa] at h
      subst h
      cases hval : p a with
      | false => rfl
      | true => exact absurd hval hpa

theorem chain'_dropWhile {R : Char → Char → Prop} {p : Char → Bool} :
    ∀ {l : List Char}, l.Chain' R → (l.dropWhile p).Chain' R := by
  intro l
  induction l with
  | nil => intro _; simp
  | cons a t ih =>
    intro h
    rw [List.dropWhile_cons]
    by_cases hpa : p a = true
    · simpa [hpa] using ih (List.chain'_cons'.mp h).2
    · simpa [hpa] using h

theorem getLast?_dropWhile {p : Char → Bool} :
    ∀ (l : List Char), l.dropWhile p ≠ [] → (l.dropWhile p).getLast? = l.getLast? := by
  intro l
  induction l with
  | nil => intro h; simp at h
  | cons a t ih =>
    intro h
    rw [List.dropWhile_cons] at h ⊢
    by_cases hpa : p a = true
    · simp only [hpa, if_true] at h ⊢
      have ht : t ≠ [] := by
        intro he; rw [he] at h; simp at h
      cases t with
      | nil => exact absurd rfl ht
      | cons b t2 => rw [ih h, List.getLast?_cons_cons]
    · simp [hpa]

theorem mem_dropWhile_sub {p : Char → Bool} :
    ∀ {l : List Char} {c : Char}, c ∈ l.dropWhile p → c ∈ l := by
  intro l
  induction l with
  | nil => intro c h; simp at h
  | cons a t ih =>
    intro c h
    rw [List.dropWhile_cons] at h
    by_cases hpa : p a = true
    · simp only [hpa, if_true] at h
      exact List.mem_cons_of_mem a (ih h)
    · simpa [hpa] using h

/-! ## Claim-side notion of a well-formed slug (§8, testable property 1) -/

theorem slugChar_ne_dash {c : Char} (h : isSlugChar c = true) : c ≠ '-' := by
  rintro rfl
  revert h
  decide

theorem collapseAux_mem :
    ∀ (l : List Char) (b : Bool) (c : Char), c ∈ collapseAux b l →
      isSlugChar c = true ∨ c = '-' := by
  intro l
  induction l with
  | nil => intro b c h; simp [collapseAux] at h
  | cons a t ih =>
    intro b c h
    rw [collapseAux] at h
    by_cases hsa : isSlugChar a = true
    · simp only [hsa, if_true] at h
      rcases List.mem_cons.mp h with rfl | h2
      · exact Or.inl hsa
      · exact ih false c h2
    · simp only [hsa, Bool.false_eq_true, if_false] at h
      cases b with
      | true => exact ih true c (by simpa using h)
      | false =>
        simp only [Bool.false_eq_true, if_false] at h
        rcases List.mem_cons.mp h with rfl | h2
        · exact Or.inr rfl
        · exact ih true c h2

theorem collapseAux_true_head :
    ∀ (l : List Char) (c : Char), (collapseAux true l).head? = some c →
      isSlugChar c = true := by
  intro l
  induction l with
  | nil => intro c h; simp [collapseAux] at h
  | cons a t ih =>
    intro c h
    rw [collapseAux] at h
    by_cases hsa : isSlugChar a = true
    · simp only [hsa, if_true, List.head?_cons, Option.some.injEq] at h
      rwa [← h]
    · simpa [hsa] using ih c (by simpa [hsa] using h)

theorem collapseAux_chain :
    ∀ (l : List Char) (b : Bool),
      (collapseAux b l).Chain' (fun x y => x ≠ '-' ∨ y ≠ '-') := by
  intro l
  induction l with
  | nil => intro b; simp [collapseAux]
  | cons a t ih =>
    intro b
    rw [collapseAux]
    by_cases hsa : isSlugChar a = true
    · simp only [hsa, if_true]
      refine List.chain'_cons'.mpr ⟨fun y _ => Or.inl (slugChar_ne_dash hsa), ih false⟩
    · simp only [hsa, Bool.false_eq_true, if_false]
      cases b with
      | true => simpa using ih true
      | false =>
        simp only [Bool.false_eq_true, if_false]
        refine List.chain'_cons'.mpr ⟨fun y hy => ?_, ih true⟩
        exact Or.inr (slugChar_ne_dash (collapseAux_true_head t y hy))

theorem stripDashes_good (l : List Char)
    (hm : ∀ c ∈ l, isSlugChar c = true ∨ c = '-')
    (hc : l.Chain' (fun x y => x ≠ '-' ∨ y ≠ '-')) :
    GoodSlug (stripDashes l) := by
  unfold stripDashes
  refine ⟨?_, ?_, ?_, ?_⟩
  · intro c hcmem
    rw [List.mem_reverse] at hcmem
    have h1 := mem_dropWhile_sub hcmem
    rw [List.mem_reverse] at h1
    exact hm c (mem_dropWhile_sub h1)
  · have h1 := chain'_dropWhile (p := fun c => c = '-') hc
    have h2 : ((l.dropWhile fun c => c = '-').reverse).Chain'
        (fun x y => x ≠ '-' ∨ y ≠ '-') := by
      rw [List.chain'_reverse]
      exact h1.imp fun a b hab => hab.symm
    have h3 := chain'_dropWhile (p := fun c => c = '-') h2
    rw [List.chain'_reverse]
    exact h3.imp fun a b hab => hab.symm
  · intro c hhead
    rw [List.head?_reverse] at hhead
    have hne : ((l.dropWhile fun c => c = '-').reverse.dropWhile fun c => c = '-') ≠ [] := by
      intro he
      rw [he] at hhead
      simp at hhead
    rw [getLast?_dropWhile _ hne, List.getLast?_reverse] at hhead
    have := head?_dropWhile_not _ _ hhead
    simpa using this
  · intro c hlast
    rw [List.getLast?_reverse] at hlast
    have := head?_dropWhile_not _ _ hlast
    simpa using this

theorem collapseAux_true_nil :
    ∀ (l : List Char), (∀ c ∈ l, isSlugChar c = false) →
      collapseAux true l = [] := by
  intro l
  induction l with
  | nil => intro _; rfl
  | cons a t ih =>
    intro h
    rw [collapseAux]
    simp only [h a (by simp), Bool.false_eq_true, if_false, if_true]
    exact ih fun c hc => h c (List.mem_cons_of_mem a hc)

theorem mem_trimList_sub {l : List Char} {c : Char} (h : c ∈ trimList l) :
    c ∈ l := by
  unfold trimList at h
  rw [List.mem_reverse] at h
  have h1 := mem_dropWhile_sub h
  rw [List.mem_reverse] at h1
  exact mem_dropWhile_sub h1

theorem stripDashes_collapse_nonSlug (m : List Char)
    (hm : ∀ c ∈ m, isSlugChar c = false) :
    stripDashes (collapseRuns m) = [] := by
  cases m with
  | nil => rfl
  | cons c t =>
    have h1 : isSlugChar c = false := hm c (by simp)
    have h2 : collapseAux true t = [] :=
      collapseAux_true_nil t fun d hd => hm d (List.mem_cons_of_mem c hd)
    show stripDashes (collapseAux false (c :: t)) = []
    rw [collapseAux]
    simp only [h1, Bool.false_eq_true, if_false, h2]
    decide

theorem slugify_eq_empty (s : String)
    (h : ∀ c ∈ s.data, isSlugChar c.toLower = false) : slugify s = "" := by
  have hm : ∀ c ∈ toLowerList (trimList s.data), isSlugChar c = false := by
    intro c hc
    rcases List.mem_map.mp hc with ⟨c', hc', rfl⟩
    exact h c' (mem_trimList_sub hc')
  show (⟨stripDashes (collapseRuns (toLowerList (trimList s.data)))⟩ : String) = ""
  rw [stripDashes_collapse_nonSlug _ hm]

/-- C2: For every title, `slugify` produces a string of lowercase
letters, digits and single dashes, without leading or trailing dash (the
title lowercased, with maximal non-`[a-z0-9]` runs collapsed to one dash and
edge dashes stripped); in particular `slugify("Hello, World!") ==
"hello-world"` and `slugify("  ---Foo Bar---  ") == "foo-bar"`. -/
theorem slugify_spec :
    (∀ title : String, GoodSlug (slugify title).data) ∧
    slugify "Hello, World!" = "hello-world" ∧
    slugify "  ---Foo Bar---  " = "foo-bar" := by
  refine ⟨fun title => ?_, by decide, by decide⟩
  show GoodSlug (stripDashes (collapseRuns (toLowerList (trimList title.data))))
  rw [collapseRuns]
  exact stripDashes_good _ (collapseAux_mem _ false) (collapseAux_chain _ false)

theorem slugify_spec_witness : GoodSlug (slugify "A  B!").data :=
  slugify_spec.1 "A  B!"

/-- C10: A title made only of non-alphanumeric characters passes the
required-string-field check (it is non-empty after trimming) yet slugifies to
the empty string: `"!!!"` is such a title, the whole pre-save hook succeeds
on `bangTitleEvent`, and it stores `slug = ""`.  So the string validation on
`title` does not guarantee a non-empty slug. -/
theorem title_validation_allows_empty_slug :
    (∀ s : String, (∀ c ∈ s.data, isSlugChar c.toLower = false) →
      slugify s = "") ∧
    (trimList "!!!".data).length ≠ 0 ∧
    slugify "!!!" = "" ∧
    validateEvent bangTitleEvent = none ∧
    eventPreSave jsDateISO bangTitleEvent =
      .ok { bangTitleEvent with
              slug := some "", date := some "2025-06-09", time := some "13:30" } := by
  refine ⟨slugify_eq_empty, by decide, by decide, by decide, ?_⟩
  rfl

theorem title_validation_allows_empty_slug_witness : slugify "@@@" = "" :=
  title_validation_allows_empty_slug.1 "@@@" (by decide)

/-! ## The Event validation phase (claim C4) -/

theorem checkRequiredStrings_none_iff :
    ∀ l : List (String × Option String),
      checkRequiredStrings l = none ↔ ∀ p ∈ l, goodStr p.2 = true := by
  intro l
  induction l with
  | nil => simp [checkRequiredStrings]
  | cons q rest ih =>
    obtain ⟨name, v⟩ := q
    cases v with
    | none => simp [checkRequiredStrings, goodStr]
    | some s =>
      by_cases hs : trimList s.data = []
      · simp [checkRequiredStrings, hs, goodStr]
      · simp [checkRequiredStrings, hs, goodStr, ih, List.length_eq_zero]

theorem checkRequiredStrings_some :
    ∀ (l : List (String × Option String)) (e : String),
      checkRequiredStrings l = some e →
      ∃ p ∈ l, goodStr p.2 = false ∧ e = fieldErrMsg p.1 := by
  intro l
  induction l with
  | nil => intro e h; simp [checkRequiredStrings] at h
  | cons q rest ih =>
    obtain ⟨name, v⟩ := q
    intro e h
    cases v with
    | none =>
      rw [checkRequiredStrings] at h
      exact ⟨(name, none), by simp, by simp [goodStr],
             ((Option.some.injEq _ _).mp h).symm⟩
    | some s =>
      by_cases hs : (trimList s.data).length = 0
      · rw [checkRequiredStrings, if_pos hs] at h
        exact ⟨(name, some s), by simp,
               by simp [goodStr, List.length_eq_zero.mp hs],
               ((Option.some.injEq _ _).mp h).symm⟩
      · rw [checkRequiredStrings, if_neg hs] at h
        obtain ⟨p, hp, hg, he⟩ := ih e h
        exact ⟨p, List.mem_cons_of_mem _ hp, hg, he⟩

/-- C4: The Event pre-save hook's validation phase fails with an error
naming the offending field exactly when one of the eleven required string
fields is not a string or empty after trimming, fails with the descriptive
agenda/tags message when `agenda` or `tags` is not a non-empty list, and when
every check passes the hook proceeds to the normalization phase. -/
theorem eventValidation_spec :
    (∀ d : EventDoc, validateEvent d = none ↔
      ((∀ p ∈ requiredStringFields d, goodStr p.2 = true) ∧
       (∃ ag, d.agenda = some ag ∧ ag ≠ []) ∧
       (∃ tg, d.tags = some tg ∧ tg ≠ []))) ∧
    (∀ (d : EventDoc) (e : String), validateEvent d = some e →
      ((∃ p ∈ requiredStringFields d, goodStr p.2 = false ∧ e = fieldErrMsg p.1) ∨
       ((d.agenda = none ∨ d.agenda = some []) ∧
         e = "Agenda must contain at least one item.") ∨
       ((d.tags = none ∨ d.tags = some []) ∧
         e = "Tags must contain at least one item."))) ∧
    (∀ (jsDate : String → Option JDate) (d : EventDoc),
      validateEvent d = none → eventPreSave jsDate d = eventNormalize jsDate d) := by
  refine ⟨fun d => ?_, fun d e h => ?_, fun jsDate d h => ?_⟩
  · constructor
    · intro h
      unfold validateEvent at h
      cases hc : checkRequiredStrings (requiredStringFields d) with
      | some e => simp only [hc] at h; exact absurd h (by simp)
      | none =>
        simp only [hc] at h
        refine ⟨(checkRequiredStrings_none_iff _).mp hc, ?_, ?_⟩
        · cases hag : d.agenda with
          | none => simp only [hag] at h; exact absurd h (by simp)
          | some ag =>
            simp only [hag] at h
            by_cases hlen : ag.length = 0
            · rw [if_pos hlen] at h; exact absurd h (by simp)
            · exact ⟨ag, rfl, fun he => hlen (by rw [he]; rfl)⟩
        · cases hag : d.agenda with
          | none => simp only [hag] at h; exact absurd h (by simp)
          | some ag =>
            simp only [hag] at h
            by_cases hlen : ag.length = 0
            · rw [if_pos hlen] at h; exact absurd h (by simp)
            · rw [if_neg hlen] at h
              cases htg : d.tags with
              | none => simp only [htg] at h; exact absurd h (by simp)
              | some tg =>
                simp only [htg] at h
                by_cases htlen : tg.length = 0
                · rw [if_pos htlen] at h; exact absurd h (by simp)
                · exact ⟨tg, rfl, fun he => htlen (by rw [he]; rfl)⟩
    · rintro ⟨hstr, ⟨ag, hag, hagne⟩, ⟨tg, htg, htgne⟩⟩
      unfold validateEvent
      simp only [(checkRequiredStrings_none_iff _).mpr hstr, hag, htg]
      rw [if_neg (fun hlen => hagne (List.length_eq_zero.mp hlen)),
          if_neg (fun hlen => htgne (List.length_eq_zero.mp hlen))]
  · unfold validateEvent at h
    cases hc : checkRequiredStrings (requiredStringFields d) with
    | some e2 =>
      simp only [hc, Option.some.injEq] at h
      obtain ⟨p, hp, hg, he⟩ := checkRequiredStrings_some _ e2 hc
      exact Or.inl ⟨p, hp, hg, by rw [← h]; exact he⟩
    | none =>
      simp only [hc] at h
      cases hag : d.agenda with
      | none =>
        simp only [hag, Option.some.injEq] at h
        exact Or.inr (Or.inl ⟨Or.inl rfl, h.symm⟩)
      | some ag =>
        simp only [hag] at h
        by_cases hlen : ag.length = 0
        · rw [if_pos hlen] at h
          exact Or.inr (Or.inl ⟨Or.inr (by rw [List.length_eq_zero.mp hlen]),
            ((Option.some.injEq _ _).mp h).symm⟩)
        · rw [if_neg hlen] at h
          cases htg : d.tags with
          | none =>
            simp only [htg, Option.some.injEq] at h
            exact Or.inr (Or.inr ⟨Or.inl rfl, h.symm⟩)
          | some tg =>
            simp only [htg] at h
            by_cases htlen : tg.length = 0
            · rw [if_pos htlen] at h
              exact Or.inr (Or.inr ⟨Or.inr (by rw [List.length_eq_zero.mp htlen]),
                ((Option.some.injEq _ _).mp h).symm⟩)
            · rw [if_neg htlen] at h
              exact absurd h (by simp)
  · unfold eventPreSave
    rw [h]

theorem eventValidation_spec_witness :
    eventPreSave jsDateISO baseEvent = eventNormalize jsDateISO baseEvent :=
  eventValidation_spec.2.2 jsDateISO baseEvent (by decide)

/-! ## The normalization blocks (claims C6, C7) -/

theorem applySlug_frame (d : EventDoc) :
    (applySlug d).date = d.date ∧ (applySlug d).time = d.time ∧
    (applySlug d).isNew = d.isNew ∧
    (applySlug d).modifiedPaths = d.modifiedPaths := by
  unfold applySlug
  split <;> exact ⟨rfl, rfl, rfl, rfl⟩

theorem applySlug_not_run (d : EventDoc)
    (h1 : d.isNew = false) (h2 : d.modifiedPaths.contains "title" = false) :
    applySlug d = d := by
  unfold applySlug
  rw [if_neg]
  rintro (h | h) <;> simp_all

theorem applyDate_not_run (jsDate : String → Option JDate) (d : EventDoc)
    (h1 : d.isNew = false) (h3 : d.modifiedPaths.contains "date" = false) :
    applyDate jsDate d = .ok d := by
  unfold applyDate
  rw [if_neg]
  rintro (h | h) <;> simp_all

theorem applyTime_not_run (d : EventDoc)
    (h1 : d.isNew = false) (h4 : d.modifiedPaths.contains "time" = false) :
    applyTime d = .ok d := by
  unfold applyTime
  rw [if_neg]
  rintro (h | h) <;> simp_all

theorem applyDate_run_none (jsDate : String → Option JDate) (d : EventDoc)
    (hrun : d.isNew = true ∨ d.modifiedPaths.contains "date" = true)
    (hjd : jsDate (d.date.getD "") = none) :
    applyDate jsDate d = .error "Invalid date format. Expected a valid date string." := by
  unfold applyDate
  rw [if_pos hrun]
  simp [hjd]

theorem applyDate_run_some (jsDate : String → Option JDate) (d : EventDoc)
    (jd : JDate)
    (hrun : d.isNew = true ∨ d.modifiedPaths.contains "date" = true)
    (hjd : jsDate (d.date.getD "") = some jd) :
    applyDate jsDate d = .ok { d with date := some (toISODateOnly jd) } := by
  unfold applyDate
  rw [if_pos hrun]
  simp [hjd]

theorem applyTime_date (d : EventDoc) :
    ∀ d2, applyTime d = .ok d2 → d2.date = d.date := by
  intro d2 h
  unfold applyTime at h
  by_cases hc : d.isNew = true ∨ d.modifiedPaths.contains "time" = true
  · rw [if_pos hc] at h
    cases hnt : normalizeTime (d.time.getD "") with
    | none => simp [hnt] at h
    | some t =>
      simp only [hnt, Except.ok.injEq] at h
      rw [← h]
  · rw [if_neg hc] at h
    simp only [Except.ok.injEq] at h
    rw [← h]

/-- C7: In the Event pre-save hook, slug, date and time are recomputed
only when the record is new or the corresponding source field was modified:
saving an existing record with `title`, `date` and `time` all unmodified
(and validation passing) leaves the document — in particular its `slug`,
`date` and `time` fields — unchanged. -/
theorem eventPreSave_frame (jsDate : String → Option JDate) (d : EventDoc)
    (h1 : d.isNew = false)
    (h2 : d.modifiedPaths.contains "title" = false)
    (h3 : d.modifiedPaths.contains "date" = false)
    (h4 : d.modifiedPaths.contains "time" = false)
    (hv : validateEvent d = none) :
    eventPreSave jsDate d = .ok d := by
  unfold eventPreSave
  rw [hv]
  unfold eventNormalize
  rw [applySlug_not_run d h1 h2, applyDate_not_run jsDate d h1 h3]
  exact applyTime_not_run d h1 h4

theorem eventPreSave_frame_witness :
    eventPreSave jsDateISO savedEvent = .ok savedEvent :=
  eventPreSave_frame jsDateISO savedEvent (by decide) (by decide) (by decide)
    (by decide) (by decide)

/-- C6: When an Event save runs the date block (the record is new or
`date` was modified) and validation passed: an unparseable date aborts the
save with the date error, and otherwise any successful save stores exactly
the UTC calendar-date portion (`YYYY-MM-DD`) of the parsed date — never the
raw user-entered string. -/
theorem eventDate_normalization (jsDate : String → Option JDate) (d : EventDoc)
    (hrun : d.isNew = true ∨ d.modifiedPaths.contains "date" = true)
    (hv : validateEvent d = none) :
    (jsDate (d.date.getD "") = none →
      eventPreSave jsDate d =
        .error "Invalid date format. Expected a valid date string.") ∧
    (∀ jd d2, jsDate (d.date.getD "") = some jd →
      eventPreSave jsDate d = .ok d2 → d2.date = some (toISODateOnly jd)) := by
  have hframe := applySlug_frame d
  have hrun1 : (applySlug d).isNew = true ∨
      (applySlug d).modifiedPaths.contains "date" = true := by
    rw [hframe.2.2.1, hframe.2.2.2]; exact hrun
  constructor
  · intro hjd
    unfold eventPreSave
    rw [hv]
    unfold eventNormalize
    rw [applyDate_run_none jsDate (applySlug d) hrun1 (by rw [hframe.1]; exact hjd)]
  · intro jd d2 hjd hok
    unfold eventPreSave at hok
    rw [hv] at hok
    unfold eventNormalize at hok
    rw [applyDate_run_some jsDate (applySlug d) jd hrun1
        (by rw [hframe.1]; exact hjd)] at hok
    have hok2 :
        applyTime { applySlug d with date := some (toISODateOnly jd) } = .ok d2 := hok
    have hd2 := applyTime_date _ d2 hok2
    rw [hd2]

theorem eventDate_normalization_witness :
    eventPreSave jsDateISO { baseEvent with date := some "bogus" } =
      .error "Invalid date format. Expected a valid date string." :=
  (eventDate_normalization jsDateISO { baseEvent with date := some "bogus" }
    (Or.inl (by decide)) (by decide)).1 (by decide)

/-! ## The email pattern and the Booking hook (claims C5, C8) -/

theorem splitAtChar_eq_some (ch : Char) :
    ∀ (cs l r : List Char),
      splitAtChar ch cs = some (l, r) ↔ cs = l ++ ch :: r ∧ ch ∉ l := by
  intro cs
  induction cs with
  | nil =>
    intro l r
    constructor
    · intro h; simp [splitAtChar] at h
    · rintro ⟨h, -⟩; cases l <;> simp at h
  | cons c t ih =>
    intro l r
    rw [splitAtChar]
    by_cases hc : c = ch
    · subst hc
      rw [if_pos rfl]
      constructor
      · intro h
        obtain ⟨rfl, rfl⟩ : l = [] ∧ t = r := by
          have := (Option.some.injEq _ _).mp h
          exact ⟨(Prod.mk.injEq _ _ _ _).mp this.symm |>.1,
                 (Prod.mk.injEq _ _ _ _).mp this |>.2⟩
        exact ⟨rfl, by simp⟩
      · rintro ⟨heq, hnotin⟩
        cases l with
        | nil => simp at heq; rw [heq]
        | cons a l2 =>
          have : c = a := by simpa using congrArg List.head? heq
          subst this
          exact absurd (by simp : c ∈ c :: l2) hnotin
    · rw [if_neg hc]
      cases hsp : splitAtChar ch t with
      | none =>
        constructor
        · intro h; simp at h
        · rintro ⟨heq, hnotin⟩
          cases l with
          | nil =>
            have : c = ch := by simpa using congrArg List.head? heq
            exact absurd this hc
          | cons a l2 =>
            have hca : c = a := by simpa using congrArg List.head? heq
            subst hca
            have ht : t = l2 ++ ch :: r := by simpa using congrArg List.tail heq
            have : splitAtChar ch t = some (l2, r) :=
              (ih l2 r).mpr ⟨ht, fun hm => hnotin (List.mem_cons_of_mem _ hm)⟩
            rw [hsp] at this
            exact absurd this (by simp)
      | some pr =>
        obtain ⟨l2, r2⟩ := pr
        constructor
        · intro h
          have hlr : l = c :: l2 ∧ r = r2 := by
            have := (Option.some.injEq _ _).mp h
            exact ⟨((Prod.mk.injEq _ _ _ _).mp this).1.symm,
                   ((Prod.mk.injEq _ _ _ _).mp this).2.symm⟩
          obtain ⟨rfl, rfl⟩ := hlr
          obtain ⟨ht, hnotin2⟩ := (ih l2 r).mp hsp
          refine ⟨by rw [ht]; simp, ?_⟩
          intro hm
          rcases List.mem_cons.mp hm with h2 | h2
          · exact hc h2.symm
          · exact hnotin2 h2
        · rintro ⟨heq, hnotin⟩
          cases l with
          | nil =>
            have : c = ch := by simpa using congrArg List.head? heq
            exact absurd this hc
          | cons a l3 =>
            have hca : c = a := by simpa using congrArg List.head? heq
            subst hca
            have ht : t = l3 ++ ch :: r := by simpa using congrArg List.tail heq
            have h3 : splitAtChar ch t = some (l3, r) :=
              (ih l3 r).mpr ⟨ht, fun hm => hnotin (List.mem_cons_of_mem _ hm)⟩
            rw [hsp] at h3
            have := (Option.some.injEq _ _).mp h3
            simp only [Prod.mk.injEq] at this
            rw [this.1, this.2]

theorem dotThenMore_iff :
    ∀ l : List Char, dotThenMore l = true ↔ ∃ a b, l = a ++ '.' :: b ∧ b ≠ [] := by
  intro l
  induction l with
  | nil =>
    constructor
    · intro h; simp [dotThenMore] at h
    · rintro ⟨a, b, heq, -⟩; cases a <;> simp at heq
  | cons c t ih =>
    rw [dotThenMore]
    simp only [Bool.or_eq_true, decide_eq_true_eq]
    constructor
    · rintro (⟨rfl, hne⟩ | h)
      · exact ⟨[], t, rfl, hne⟩
      · obtain ⟨a, b, rfl, hb⟩ := ih.mp h
        exact ⟨c :: a, b, rfl, hb⟩
    · rintro ⟨a, b, heq, hb⟩
      cases a with
      | nil =>
        have hcd : c = '.' := by simpa using congrArg List.head? heq
        have htb : t = b := by simpa using congrArg List.tail heq
        exact Or.inl ⟨hcd, htb ▸ hb⟩
      | cons a0 a2 =>
        have hca : c = a0 := by simpa using congrArg List.head? heq
        have ht : t = a2 ++ '.' :: b := by simpa using congrArg List.tail heq
        exact Or.inr (ih.mpr ⟨a2, b, ht, hb⟩)

theorem interiorDot_iff :
    ∀ r : List Char,
      interiorDot r = true ↔ ∃ a b, r = a ++ '.' :: b ∧ a ≠ [] ∧ b ≠ [] := by
  intro r
  cases r with
  | nil =>
    constructor
    · intro h; simp [interiorDot] at h
    · rintro ⟨a, b, heq, -, -⟩; cases a <;> simp at heq
  | cons c t =>
    rw [interiorDot]
    constructor
    · intro h
      obtain ⟨a, b, rfl, hb⟩ := (dotThenMore_iff t).mp h
      exact ⟨c :: a, b, rfl, by simp, hb⟩
    · rintro ⟨a, b, heq, ha, hb⟩
      cases a with
      | nil => exact absurd rfl ha
      | cons a0 a2 =>
        have ht : t = a2 ++ '.' :: b := by simpa using congrArg List.tail heq
        exact (dotThenMore_iff t).mpr ⟨a2, b, ht, hb⟩

theorem emailRegexTest_iff (s : String) :
    emailRegexTest s = true ↔ EmailShape s.data := by
  unfold emailRegexTest
  cases hsp : splitAtChar '@' s.data with
  | none =>
    constructor
    · intro h; simp at h
    · rintro ⟨l, a, b, heq, -, -, -, hl, -, -⟩
      have hnotin : '@' ∉ l := by
        intro hm
        have := hl '@' hm
        simp [okEmailChar] at this
      have h2 : splitAtChar '@' s.data = some (l, a ++ '.' :: b) :=
        (splitAtChar_eq_some '@' s.data l _).mpr ⟨heq, hnotin⟩
      rw [hsp] at h2
      exact absurd h2 (by simp)
  | some pr =>
    obtain ⟨l, r⟩ := pr
    obtain ⟨heq, hnotin⟩ := (splitAtChar_eq_some '@' s.data l r).mp hsp
    simp only [decide_eq_true_eq, Bool.and_eq_true, List.all_eq_true]
    constructor
    · rintro ⟨hl0, hlall, hrall, hdot⟩
      obtain ⟨a, b, rfl, ha, hb⟩ := (interiorDot_iff r).mp hdot
      exact ⟨l, a, b, heq, hl0, ha, hb, hlall,
             fun c hc => hrall c (by simp [hc]),
             fun c hc => hrall c (by simp [hc])⟩
    · rintro ⟨l2, a, b, heq2, hl2, ha, hb, hlall, haall, hball⟩
      have hnotin2 : '@' ∉ l2 := by
        intro hm
        have := hlall '@' hm
        simp [okEmailChar] at this
      have h2 : splitAtChar '@' s.data = some (l2, a ++ '.' :: b) :=
        (splitAtChar_eq_some '@' s.data l2 _).mpr ⟨heq2, hnotin2⟩
      rw [hsp] at h2
      have h3 := (Option.some.injEq _ _).mp h2
      simp only [Prod.mk.injEq] at h3
      obtain ⟨h4, h5⟩ := h3
      subst h4
      subst h5
      refine ⟨hl2, hlall, ?_, (interiorDot_iff _).mpr ⟨a, b, rfl, ha, hb⟩⟩
      intro c hc
      rcases List.mem_append.mp hc with h4 | h4
      · exact haall c h4
      · rcases List.mem_cons.mp h4 with rfl | h5
        · decide
        · exact hball c h5

/-- C8: A Booking's email is stored trimmed and lowercased
(`"USER@Example.com"` becomes `"user@example.com"`), the hook's regex accepts
exactly the strings of shape `local@domain.tld` (non-empty parts, a dot in
the domain, no whitespace, no extra `@`), and a Booking whose email is absent
or fails the regex is rejected with the email validation error. -/
theorem booking_email_spec :
    normalizeEmailSetter "USER@Example.com" = "user@example.com" ∧
    (∀ s : String, emailRegexTest s = true ↔ EmailShape s.data) ∧
    (∀ (store : List String) (b : BookingDoc) (e : String),
      b.email = some e → emailRegexTest e = false →
      bookingPreSave store b = .error "A valid email address is required.") ∧
    (∀ (store : List String) (b : BookingDoc),
      b.email = none →
      bookingPreSave store b = .error "A valid email address is required.") := by
  refine ⟨by decide, emailRegexTest_iff, ?_, ?_⟩
  · intro store b e hb hreg
    unfold bookingPreSave
    simp [hb, hreg]
  · intro store b hb
    unfold bookingPreSave
    simp [hb]

theorem booking_email_spec_witness :
    bookingPreSave [] ⟨some "id1", some "no-at-sign"⟩ =
      .error "A valid email address is required." :=
  booking_email_spec.2.2.1 [] ⟨some "id1", some "no-at-sign"⟩ "no-at-sign"
    rfl (by decide)

/-- C5: With the email and eventId validations passing, saving a Booking
fails with the referential error exactly when the save-time existence check
of its `eventId` against the Event collection finds no matching Event; when
it finds one, the save proceeds. -/
theorem bookingReferential_spec (store : List String) (b : BookingDoc)
    (e id : String) (hb : b.email = some e) (he : e ≠ "")
    (hre : emailRegexTest e = true) (hid : b.eventId = some id) :
    (bookingPreSave store b = .error "Referenced event does not exist." ↔
      store.contains id = false) ∧
    (store.contains id = true → bookingPreSave store b = .ok ()) := by
  unfold bookingPreSave
  cases hc : store.contains id with
  | false =>
    have hmem : id ∉ store := by simpa using hc
    simp [hb, he, hre, hid, hc, hmem]
  | true =>
    have hmem : id ∈ store := by simpa using hc
    simp [hb, he, hre, hid, hc, hmem]

theorem bookingReferential_spec_witness :
    bookingPreSave ["e1"] sampleBooking = .ok () :=
  (bookingReferential_spec ["e1"] sampleBooking "a@b.co" "e1" rfl (by decide)
    (by decide) rfl).2 (by decide)

/-! ## The connection cache (claims C3, C9) -/

theorem runEnters_inflight :
    ∀ (n fresh : Nat),
      runEnters ⟨none, some 0⟩ fresh n =
        (⟨none, some 0⟩, List.replicate n (ConnectOutcome.awaiting 0, false)) := by
  intro n
  induction n with
  | zero => intro fresh; rfl
  | succ k ih =>
    intro fresh
    rw [runEnters]
    simp [connectEnter, ih fresh, List.replicate_succ]

theorem runEnters_first (n : Nat) :
    runEnters emptyCache 0 (n + 1) =
      (⟨none, some 0⟩,
       (ConnectOutcome.awaiting 0, true) ::
         List.replicate n (ConnectOutcome.awaiting 0, false)) := by
  rw [runEnters]
  simp [emptyCache, connectEnter, runEnters_inflight n 1]

theorem countP_attempts_replicate :
    ∀ n : Nat,
      (List.replicate n (ConnectOutcome.awaiting 0, false)).countP
        (fun ob => ob.2) = 0 := by
  intro n
  induction n with
  | zero => rfl
  | succ k ih =>
    rw [List.replicate_succ, List.countP_cons]
    simp [ih]

/-- C9: Any number of calls to `connectToDatabase` interleaved before the
first attempt settles make exactly one underlying connection attempt: the
first call creates attempt 0 and every call awaits that same attempt; and
once the attempt fulfills, any later call returns the cached handle directly
without a new attempt. -/
theorem connect_single_attempt :
    (∀ n : Nat,
      (runEnters emptyCache 0 (n + 1)).2 =
        (ConnectOutcome.awaiting 0, true) ::
          List.replicate n (ConnectOutcome.awaiting 0, false)) ∧
    (∀ n : Nat,
      (runEnters emptyCache 0 (n + 1)).2.countP (fun ob => ob.2) = 1) ∧
    (∀ n : Nat, ∀ ob ∈ (runEnters emptyCache 0 (n + 1)).2,
      ob.1 = ConnectOutcome.awaiting 0) ∧
    (∀ n v fresh : Nat,
      connectEnter
        (connectResume (runEnters emptyCache 0 (n + 1)).1 (Except.ok v)).1 fresh =
        ((connectResume (runEnters emptyCache 0 (n + 1)).1 (Except.ok v)).1,
          ConnectOutcome.cachedConn v, false)) := by
  refine ⟨fun n => ?_, fun n => ?_, fun n ob hob => ?_, fun n v fresh => ?_⟩
  · rw [runEnters_first n]
  · rw [runEnters_first n]
    rw [List.countP_cons]
    simp [countP_attempts_replicate n]
  · rw [runEnters_first n] at hob
    rcases List.mem_cons.mp hob with rfl | h2
    · rfl
    · rw [List.eq_of_mem_replicate h2]
  · rw [runEnters_first n]
    rfl

theorem connect_single_attempt_witness :
    (runEnters emptyCache 0 2).2.countP (fun ob => ob.2) = 1 :=
  connect_single_attempt.2.1 1

/-- C3 counterexample; refutes: "a failed attempt's rejection is not
cached: a subsequent call starts a fresh connection attempt."  Concretely:
after the only attempt (attempt 0) rejects, a second entry into
`connectToDatabase` does not invoke `mongoose.connect` (no fresh attempt) and
suspends on the very attempt 0 whose promise already rejected. -/
theorem connect_rejection_counterexample :
    (connectEnter (connectResume (connectEnter emptyCache 0).1
        (Except.error 7)).1 1).2.2 = false ∧
    (connectEnter (connectResume (connectEnter emptyCache 0).1
        (Except.error 7)).1 1).2.1 = ConnectOutcome.awaiting 0 := by
  exact ⟨rfl, rfl⟩

/-- C3 amended: if the first underlying connection attempt rejects,
the rejection propagates to the caller of `connectToDatabase`, but the cache
keeps the rejected attempt's promise (`conn` stays `null`, `promise` stays
attempt 0): a subsequent call starts no fresh attempt, awaits the same
attempt 0, and hence receives the earlier attempt's rejection. -/
theorem connect_rejection_propagates (e : Nat) :
    connectResume (connectEnter emptyCache 0).1 (Except.error e) =
      (⟨none, some 0⟩, Except.error e) ∧
    connectEnter (connectResume (connectEnter emptyCache 0).1
        (Except.error e)).1 1 =
      (⟨none, some 0⟩, ConnectOutcome.awaiting 0, false) ∧
    connectResume
      (connectEnter (connectResume (connectEnter emptyCache 0).1
          (Except.error e)).1 1).1
      (Except.error e) =
      (⟨none, some 0⟩, Except.error e) :=
  ⟨rfl, rfl, rfl⟩

theorem connect_rejection_propagates_witness :
    connectResume (connectEnter emptyCache 0).1 (Except.error 9) =
      (⟨none, some 0⟩, Except.error 9) :=
  (connect_rejection_propagates 9).1

/-! ## The time grammar (claim C1) -/

theorem ws_not_digit {c : Char} (h : isWSChar c = true) : isDigitChar c = false := by
  simp only [isWSChar, decide_eq_true_eq] at h
  rcases h with rfl | rfl | rfl | rfl | rfl | rfl <;> decide

theorem restHead_props (ws sf : List Char)
    (hws : ∀ c ∈ ws, isWSChar c = true)
    (hsf3 : sf = [] ∨ sf = ['a', 'm'] ∨ sf = ['p', 'm']) :
    ∀ c, (ws ++ sf).head? = some c → isDigitChar c = false ∧ c ≠ ':' := by
  intro c hc
  cases ws with
  | cons w ws2 =>
    have hcw : w = c := by simpa using hc
    subst hcw
    have hwmem : isWSChar w = true := hws w (List.mem_cons_self _ _)
    refine ⟨ws_not_digit hwmem, ?_⟩
    intro hcol
    rw [hcol] at hwmem
    exact absurd hwmem (by decide)
  | nil =>
    simp only [List.nil_append] at hc
    rcases hsf3 with rfl | rfl | rfl
    · simp at hc
    · have : 'a' = c := by simpa using hc
      subst this
      exact ⟨by decide, by decide⟩
    · have : 'p' = c := by simpa using hc
      subst this
      exact ⟨by decide, by decide⟩

theorem parseMinutes_decomp (rest : List Char) (mo : Option Nat)
    (rest2 : List Char) (h : parseMinutes rest = some (mo, rest2)) :
    (mo = none ∧ rest = rest2) ∨
    (∃ a b, rest = ':' :: a :: b :: rest2 ∧ isDigitChar a = true ∧
      isDigitChar b = true ∧ mo = some (digitsToNat [a, b])) := by
  cases rest with
  | nil =>
    rw [parseMinutes] at h
    simp only [Option.some.injEq, Prod.mk.injEq] at h
    exact Or.inl ⟨h.1.symm, h.2⟩
  | cons c t =>
    rw [parseMinutes] at h
    by_cases hc : c = ':'
    · rw [if_pos hc] at h
      subst hc
      cases t with
      | nil => rw [parseMinDigits] at h; simp at h
      | cons a t2 =>
        cases t2 with
        | nil => rw [parseMinDigits] at h; simp at h
        | cons b r2 =>
          rw [parseMinDigits] at h
          by_cases hd2 : isDigitChar a = true ∧ isDigitChar b = true
          · rw [if_pos hd2] at h
            simp only [Option.some.injEq, Prod.mk.injEq] at h
            exact Or.inr ⟨a, b, by rw [h.2], hd2.1, hd2.2, h.1.symm⟩
          · rw [if_neg hd2] at h
            simp at h
    · rw [if_neg hc] at h
      simp only [Option.some.injEq, Prod.mk.injEq] at h
      exact Or.inl ⟨h.1.symm, h.2⟩

theorem parseMinutes_no_colon (rest : List Char)
    (hne : ∀ t, rest ≠ ':' :: t) : parseMinutes rest = some (none, rest) := by
  cases rest with
  | nil => rfl
  | cons c t =>
    have hc : ¬ c = ':' := fun hc => hne t (by rw [hc])
    simp [parseMinutes, hc]

theorem parseMinutes_colon (a b : Char) (r2 : List Char)
    (ha : isDigitChar a = true) (hb : isDigitChar b = true) :
    parseMinutes (':' :: a :: b :: r2) =
      some (some (digitsToNat [a, b]), r2) := by
  simp [parseMinutes, parseMinDigits, ha, hb]

theorem parseSuffix_decomp (l : List Char) (po : Option Bool)
    (h : parseSuffix l = some po) :
    ∃ ws sf, l = ws ++ sf ∧ (∀ c ∈ ws, isWSChar c = true) ∧
      ((sf = [] ∧ po = none) ∨ (sf = ['a', 'm'] ∧ po = some false) ∨
        (sf = ['p', 'm'] ∧ po = some true)) := by
  refine ⟨l.takeWhile isWSChar, l.dropWhile isWSChar,
    (List.takeWhile_append_dropWhile _ _).symm,
    fun c hc => List.mem_takeWhile_imp hc, ?_⟩
  unfold parseSuffix at h
  cases hd : l.dropWhile isWSChar with
  | nil =>
    rw [hd, parseSuffixTail] at h
    simp only [Option.some.injEq] at h
    exact Or.inl ⟨rfl, h.symm⟩
  | cons c1 t =>
    rw [hd] at h
    cases t with
    | nil => rw [parseSuffixTail] at h; simp at h
    | cons c2 t2 =>
      cases t2 with
      | nil =>
        rw [parseSuffixTail] at h
        by_cases h1 : c1 = 'a' ∧ c2 = 'm'
        · obtain ⟨rfl, rfl⟩ := h1
          rw [if_pos ⟨rfl, rfl⟩] at h
          simp only [Option.some.injEq] at h
          exact Or.inr (Or.inl ⟨rfl, h.symm⟩)
        · by_cases h2 : c1 = 'p' ∧ c2 = 'm'
          · obtain ⟨rfl, rfl⟩ := h2
            rw [if_neg (by decide), if_pos ⟨rfl, rfl⟩] at h
            simp only [Option.some.injEq] at h
            exact Or.inr (Or.inr ⟨rfl, h.symm⟩)
          · rw [if_neg h1, if_neg h2] at h
            simp at h
      | cons c3 t3 => rw [parseSuffixTail] at h; simp at h

theorem parseSuffix_build (ws sf : List Char) (po : Option Bool)
    (hws : ∀ c ∈ ws, isWSChar c = true)
    (hsf : (sf = [] ∧ po = none) ∨ (sf = ['a', 'm'] ∧ po = some false) ∨
      (sf = ['p', 'm'] ∧ po = some true)) :
    parseSuffix (ws ++ sf) = some po := by
  have hsf3 : sf = [] ∨ sf = ['a', 'm'] ∨ sf = ['p', 'm'] := by
    rcases hsf with ⟨rfl, -⟩ | ⟨rfl, -⟩ | ⟨rfl, -⟩ <;> simp
  have hdrop : (ws ++ sf).dropWhile isWSChar = sf := by
    refine (takeWhile_append_eq hws ?_).2
    intro c hc
    rcases hsf3 with rfl | rfl | rfl
    · simp at hc
    · have : 'a' = c := by simpa using hc
      subst this
      decide
    · have : 'p' = c := by simpa using hc
      subst this
      decide
  unfold parseSuffix
  rw [hdrop]
  rcases hsf with ⟨rfl, rfl⟩ | ⟨rfl, rfl⟩ | ⟨rfl, rfl⟩
  · rfl
  · decide
  · decide

theorem matchTime_shape (cs : List Char) (h : Nat) (mo : Option Nat)
    (po : Option Bool) (hm : matchTime cs = some (h, mo, po)) :
    TimeShape cs h mo po := by
  unfold matchTime at hm
  by_cases hlen : (cs.takeWhile isDigitChar).length = 0 ∨
      2 < (cs.takeWhile isDigitChar).length
  · rw [if_pos hlen] at hm
    exact absurd hm (by simp)
  · rw [if_neg hlen] at hm
    push_neg at hlen
    obtain ⟨hlen0, hlen2⟩ := hlen
    cases hpm : parseMinutes (cs.dropWhile isDigitChar) with
    | none => simp [hpm] at hm
    | some pr =>
      obtain ⟨mo2, rest2⟩ := pr
      simp only [hpm] at hm
      cases hps : parseSuffix rest2 with
      | none => simp [hps] at hm
      | some po2 =>
        simp only [hps, Option.some.injEq, Prod.mk.injEq] at hm
        obtain ⟨hh, hmo, hpo⟩ := hm
        subst hh
        subst hmo
        subst hpo
        rcases parseMinutes_decomp _ _ _ hpm with ⟨rfl, heq⟩ |
            ⟨a, b, heq, ha, hb, rfl⟩
        · obtain ⟨ws, sf, hr2, hws, hsf⟩ := parseSuffix_decomp rest2 _ hps
          refine ⟨cs.takeWhile isDigitChar, [], ws, sf, ?_, by omega,
            fun c hc => List.mem_takeWhile_imp hc, rfl, Or.inl ⟨rfl, rfl⟩,
            hws, hsf⟩
          conv_lhs => rw [← List.takeWhile_append_dropWhile (p := isDigitChar)
            (l := cs)]
          rw [heq, hr2]
          simp
        · obtain ⟨ws, sf, hr2, hws, hsf⟩ := parseSuffix_decomp rest2 _ hps
          refine ⟨cs.takeWhile isDigitChar, [':', a, b], ws, sf, ?_, by omega,
            fun c hc => List.mem_takeWhile_imp hc, rfl,
            Or.inr ⟨a, b, rfl, ha, hb, rfl⟩, hws, hsf⟩
          conv_lhs => rw [← List.takeWhile_append_dropWhile (p := isDigitChar)
            (l := cs)]
          rw [heq, hr2]
          simp

theorem shape_matchTime (cs : List Char) (h : Nat) (mo : Option Nat)
    (po : Option Bool) (hs : TimeShape cs h mo po) :
    matchTime cs = some (h, mo, po) := by
  obtain ⟨hd, mp, ws, sf, rfl, hlen, hdig, hval, hmp, hws, hsf⟩ := hs
  have hsf3 : sf = [] ∨ sf = ['a', 'm'] ∨ sf = ['p', 'm'] := by
    rcases hsf with ⟨rfl, -⟩ | ⟨rfl, -⟩ | ⟨rfl, -⟩ <;> simp
  have hrest_props := restHead_props ws sf hws hsf3
  have hheadrest : ∀ c, (mp ++ (ws ++ sf)).head? = some c →
      isDigitChar c = false := by
    rcases hmp with ⟨rfl, -⟩ | ⟨a, b, rfl, -, -, -⟩
    · intro c hc
      simp only [List.nil_append] at hc
      exact (hrest_props c hc).1
    · intro c hc
      have : ':' = c := by simpa using hc
      subst this
      decide
  obtain ⟨htake, hdrop⟩ := takeWhile_append_eq hdig hheadrest
  unfold matchTime
  rw [htake, hdrop]
  rw [if_neg (by rcases hlen with h1 | h1 <;> rw [h1] <;> decide)]
  rcases hmp with ⟨rfl, rfl⟩ | ⟨a, b, rfl, ha, hb, rfl⟩
  · have hnc : ∀ t, ws ++ sf ≠ ':' :: t := by
      intro t heq
      have h2 : (ws ++ sf).head? = some ':' := by rw [heq]; rfl
      exact (hrest_props ':' h2).2 rfl
    simp only [List.nil_append]
    rw [parseMinutes_no_colon (ws ++ sf) hnc]
    simp only [parseSuffix_build ws sf po hws hsf, hval]
  · simp only [List.cons_append, List.nil_append]
    rw [parseMinutes_colon a b _ ha hb]
    simp only [parseSuffix_build ws sf po hws hsf, hval]

/-- C1: the function `normalizeTime` accepts exactly the inputs whose trimmed,
lowercased form matches the grammar "one or two hour digits, optional `:MM`,
optional whitespace, optional `am`/`pm`": on a grammar match with minutes
0–59 and the hour in range (1–12 with a suffix, 0–23 without) it returns the
zero-padded `HH:MM` after 12-hour → 24-hour conversion (12am→00, 12pm→12,
pm adds 12 except for 12); on a grammar match with a range violation, and on
any input that does not match the grammar, it returns `null`.  In
particular the spec's five examples hold. -/
theorem normalizeTime_spec :
    (∀ (s : String) (h : Nat) (mo : Option Nat) (po : Option Bool),
      TimeShape (toLowerList (trimList s.data)) h mo po → ValidTime h mo po →
      normalizeTime s =
        some (pad2 (to24Hour h po) ++ ":" ++ pad2 (mo.getD 0))) ∧
    (∀ (s : String) (h : Nat) (mo : Option Nat) (po : Option Bool),
      TimeShape (toLowerList (trimList s.data)) h mo po → ¬ ValidTime h mo po →
      normalizeTime s = none) ∧
    (∀ s : String,
      (∀ h mo po, ¬ TimeShape (toLowerList (trimList s.data)) h mo po) →
      normalizeTime s = none) ∧
    normalizeTime "1:30 pm" = some "13:30" ∧
    normalizeTime "13:30" = some "13:30" ∧
    normalizeTime "12am" = some "00:00" ∧
    normalizeTime "25:00" = none ∧
    normalizeTime "13pm" = none := by
  refine ⟨?_, ?_, ?_, by decide, by decide, by decide, by decide, by decide⟩
  · intro s h mo po hshape hvalid
    obtain ⟨h59, h23, h12⟩ := hvalid
    have hmt := shape_matchTime _ _ _ _ hshape
    simp only [normalizeTime, hmt]
    rw [if_neg (show ¬ 59 < mo.getD 0 by omega)]
    cases po with
    | none =>
      rw [if_neg (show ¬ 23 < h by have := h23 rfl; omega)]
      rfl
    | some isPm =>
      obtain ⟨hge, hle⟩ := h12 (by simp)
      simp only []
      rw [if_neg (show ¬ (h < 1 ∨ 12 < h) by omega)]
      cases isPm with
      | true =>
        by_cases h12e : h = 12
        · subst h12e; simp [to24Hour]
        · simp [to24Hour, h12e]
      | false =>
        by_cases h12e : h = 12
        · subst h12e; simp [to24Hour]
        · simp [to24Hour, h12e]
  · intro s h mo po hshape hinvalid
    have hmt := shape_matchTime _ _ _ _ hshape
    simp only [normalizeTime, hmt]
    by_cases h59 : 59 < mo.getD 0
    · rw [if_pos h59]
    · rw [if_neg h59]
      cases po with
      | none =>
        by_cases h23 : 23 < h
        · rw [if_pos h23]
        · exact absurd
            ⟨by omega, fun _ => by omega, fun hne => absurd rfl hne⟩ hinvalid
      | some isPm =>
        simp only []
        by_cases hr : h < 1 ∨ 12 < h
        · rw [if_pos hr]
        · refine absurd ⟨by omega, fun heq => ?_, fun _ => by omega⟩ hinvalid
          exact absurd heq (by simp)
  · intro s hnone
    cases hmt : matchTime (toLowerList (trimList s.data)) with
    | none => simp [normalizeTime, hmt]
    | some pr =>
      obtain ⟨h, mo, po⟩ := pr
      exact absurd (matchTime_shape _ _ _ _ hmt) (hnone h mo po)

theorem normalizeTime_spec_witness :
    normalizeTime "1:30 pm" =
      some (pad2 (to24Hour 1 (some true)) ++ ":" ++
        pad2 ((some 30 : Option Nat).getD 0)) :=
  normalizeTime_spec.1 "1:30 pm" 1 (some 30) (some true)
    ⟨['1'], [':', '3', '0'], [' '], ['p', 'm'], by decide, by decide,
      by decide, by decide,
      Or.inr ⟨'3', '0', rfl, by decide, by decide, by decide⟩,
      by decide, Or.inr (Or.inr ⟨rfl, rfl⟩)⟩
    ⟨by decide, by decide, by decide⟩

end DevEvents
